import Mathlib

/-!
Verification of the apiproxyd core against its specification.

Each section embeds one component of the Go source as executable Lean
definitions (integers model Go ints, lists of naturals model byte slices,
explicit `now : Int` parameters model `time.Now()`), and proves or refutes
the specified properties about them.
-/

namespace ApiProxy

/-!
## Circuit breaker — src/pkg/client/circuitbreaker.go

State machine with fields as in the Go `CircuitBreaker` struct.  Time is an
abstract integer clock; `time.Since(t) > timeout` becomes `now - t > timeout`.
-/

inductive CircuitState where
  | closed
  | opened
  | halfOpen
deriving DecidableEq, Repr

structure CircuitBreaker where
  state : CircuitState
  failureCount : Int
  successCount : Int
  lastFailureTime : Int
  threshold : Int
  timeout : Int
  halfOpenMax : Int
deriving DecidableEq, Repr

/-- Constructor `NewCircuitBreaker` (circuitbreaker.go:35): starts Closed with
zero counters. -/
def newCircuitBreaker (threshold timeout halfOpenMax : Int) : CircuitBreaker :=
  { state := .closed
    failureCount := 0
    successCount := 0
    lastFailureTime := 0
    threshold := threshold
    timeout := timeout
    halfOpenMax := halfOpenMax }

/-- Embeds `allowRequest` (circuitbreaker.go:56): decides admission and applies
the Open → HalfOpen transition when the timeout has elapsed. -/
def CircuitBreaker.allowRequest (cb : CircuitBreaker) (now : Int) :
    Bool × CircuitBreaker :=
  match cb.state with
  | .closed => (true, cb)
  | .opened =>
      if now - cb.lastFailureTime > cb.timeout then
        (true, { cb with state := .halfOpen, successCount := 0, failureCount := 0 })
      else
        (false, cb)
  | .halfOpen => (decide (cb.successCount + cb.failureCount < cb.halfOpenMax), cb)

/-- Embeds `recordResult` (circuitbreaker.go:80): on success, increment
successes and reset failures, closing from HalfOpen once `halfOpenMax`
successes accumulate; on failure, increment failures, stamp the failure time,
and open once `failureCount >= threshold`. -/
def CircuitBreaker.recordResult (cb : CircuitBreaker) (success : Bool) (now : Int) :
    CircuitBreaker :=
  if success then
    let cb1 := { cb with successCount := cb.successCount + 1, failureCount := 0 }
    if cb1.state = CircuitState.halfOpen ∧ cb1.halfOpenMax ≤ cb1.successCount then
      { cb1 with state := .closed }
    else
      cb1
  else
    let cb1 := { cb with failureCount := cb.failureCount + 1, lastFailureTime := now }
    if cb1.threshold ≤ cb1.failureCount then
      { cb1 with state := .opened }
    else
      cb1

inductive CallOutcome where
  | circuitOpen
  | fnDone (fnFailed : Bool)
deriving DecidableEq, Repr

/-- Embeds `Call` (circuitbreaker.go:45): consult `allowRequest`, run the
wrapped function (its outcome is the parameter `fnFails`), record the result. -/
def CircuitBreaker.call (cb : CircuitBreaker) (now : Int) (fnFails : Bool) :
    CallOutcome × CircuitBreaker :=
  let res := cb.allowRequest now
  if res.1 then
    (.fnDone fnFails, res.2.recordResult (!fnFails) now)
  else
    (.circuitOpen, res.2)

/-- A breaker that has been driven into HalfOpen by real operations:
threshold 2, timeout 5, halfOpenMax 2; two failures at time 0 open it, an
admission check at time 10 moves it to HalfOpen. -/
def cbHalfOpenExample : CircuitBreaker :=
  ((((newCircuitBreaker 2 5 2).recordResult false 0).recordResult false 0).allowRequest 10).2

/-- C2 counterexample: from HalfOpen with fail-threshold 2, recording an error
leaves the breaker in HalfOpen, not Open, refuting the claim that any HalfOpen
error opens the breaker regardless of the threshold. -/
theorem halfOpen_error_not_sticky :
    cbHalfOpenExample.state = CircuitState.halfOpen ∧
      ¬ (cbHalfOpenExample.recordResult false 10).state = CircuitState.opened ∧
      (cbHalfOpenExample.recordResult false 10).state = CircuitState.halfOpen := by
  decide

/-- C2 (amended): recording an error while HalfOpen stamps the last-failure
time and transitions to Open exactly when the incremented consecutive-failure
count reaches the configured threshold; otherwise the breaker stays HalfOpen. -/
theorem halfOpen_error_opens_iff_threshold (cb : CircuitBreaker) (now : Int)
    (h : cb.state = CircuitState.halfOpen) :
    ((cb.recordResult false now).state = CircuitState.opened ↔
        cb.threshold ≤ cb.failureCount + 1) ∧
      (cb.recordResult false now).lastFailureTime = now ∧
      (cb.threshold ≤ cb.failureCount + 1 ∨
        (cb.recordResult false now).state = CircuitState.halfOpen) := by
  unfold CircuitBreaker.recordResult
  by_cases hth : cb.threshold ≤ cb.failureCount + 1 <;>
    simp [hth, h]

/-- C2 witness: the amended theorem applied to the concrete HalfOpen breaker
with threshold 2 reached above. -/
theorem halfOpen_error_opens_iff_threshold_witness :
    ((cbHalfOpenExample.recordResult false 10).state = CircuitState.opened ↔
        cbHalfOpenExample.threshold ≤ cbHalfOpenExample.failureCount + 1) ∧
      (cbHalfOpenExample.recordResult false 10).lastFailureTime = 10 ∧
      (cbHalfOpenExample.threshold ≤ cbHalfOpenExample.failureCount + 1 ∨
        (cbHalfOpenExample.recordResult false 10).state = CircuitState.halfOpen) :=
  halfOpen_error_opens_iff_threshold cbHalfOpenExample 10 (by decide)

/-!
## Health endpoint — src/pkg/daemon/daemon.go, `handleHealth` (lines 388-428)

The handler's inputs are the observable outcomes of its collaborators: whether
`d.cache.Stats()` errored, whether a client (and its circuit-breaker state
string) is present, and whether a rate limiter is present.  The embedding
mirrors the Go control flow statement by statement; in particular the response
map captures the local `status` variable at daemon.go:407-411, and the later
reassignment `status = "degraded"` at daemon.go:419 only changes the local
variable, never the already-built map, and the 503 header was or was not
written back at daemon.go:404.
-/

structure HealthInput where
  statsError : Option String
  clientPresent : Bool
  circuitBreakerStateStr : String
  rateLimiterPresent : Bool
deriving DecidableEq, Repr

structure HealthResponse where
  httpStatus : Nat
  statusField : String
  databaseField : String
  upstreamClientField : Option String
  rateLimiterField : Option String
deriving DecidableEq, Repr

/-- Embeds `handleHealth` (daemon.go:388).  `healthy`/`dbStatus` come from the
`Stats` probe; the HTTP status is written (503) only in the `!healthy` branch;
the body's `status` field is the value of the local variable at the moment the
response map is built (daemon.go:411), before the component checks run. -/
def handleHealth (inp : HealthInput) : HealthResponse :=
  let healthy := inp.statsError.isNone
  let dbStatus :=
    match inp.statsError with
    | none => "ok"
    | some e => "error: " ++ e
  let status0 := if healthy then "ok" else "degraded"
  let httpStatus := if healthy then 200 else 503
  let responseStatus := status0
  let upstreamClient :=
    if inp.clientPresent then
      if inp.circuitBreakerStateStr = "open" then some "circuit_open" else some "ok"
    else
      none
  let _statusAfterComponents :=
    if inp.clientPresent ∧ inp.circuitBreakerStateStr = "open" then "degraded" else status0
  let rateLimiter := if inp.rateLimiterPresent then some "ok" else none
  { httpStatus := httpStatus
    statusField := responseStatus
    databaseField := dbStatus
    upstreamClientField := upstreamClient
    rateLimiterField := rateLimiter }

/-- C3 failing input evaluated: with the database healthy and the upstream
circuit breaker Open, the handler answers HTTP 200 with body status "ok"
even though `components.upstream_client` is "circuit_open" — not the 503 and
"degraded" the claim requires.  The `status = "degraded"` assignment at
daemon.go:419 happens after the response map captured the status and after
the header decision, so it is dead. -/
theorem health_circuit_open_reports_ok :
    handleHealth
        { statsError := none
          clientPresent := true
          circuitBreakerStateStr := "open"
          rateLimiterPresent := true } =
      { httpStatus := 200
        statusField := "ok"
        databaseField := "ok"
        upstreamClientField := some "circuit_open"
        rateLimiterField := some "ok" } := by
  decide

/-!
## Middleware chain — src/pkg/daemon/daemon.go, `Start` (lines 179-199)

The chain is built by successive wrapping: `handler = mux`, then
`RecoveryMiddleware`, `SecureHeaders`, the rate limiter, `BodySizeLimiter`,
`InputSanitizer`.  Each successive wrap is applied around the previous value,
so the last-wrapped middleware (`InputSanitizer`) executes first and
`RecoveryMiddleware` executes last, directly around the mux — despite the
comment at daemon.go:182 that calls Recovery "outermost".

A handler is a function from a request to an HTTP status code; middleware
either short-circuits with a status or forwards to the inner handler.
-/

structure ChainRequest where
  method : String
  contentType : String
  contentLength : Int
  ipBucketHasToken : Bool
  apiKey : Option String
  keyBucketHasToken : Bool
deriving DecidableEq, Repr

abbrev ChainHandler := ChainRequest → Nat

/-- Embeds `RecoveryMiddleware` (security.go:224): converts a panic in the
inner handler to 500; with panics out of scope of this model it forwards. -/
def recoveryMiddleware (next : ChainHandler) : ChainHandler := next

/-- Embeds `SecureHeaders` (security.go:168): sets response headers only, so
on the status-code level it forwards. -/
def secureHeaders (next : ChainHandler) : ChainHandler := next

/-- Embeds `RateLimiter.Middleware` (ratelimit.go:50): 429 when the client
IP's bucket denies; then 429 when an API key is present and its bucket
denies; otherwise forward. -/
def rateLimitMiddleware (next : ChainHandler) : ChainHandler := fun r =>
  if !r.ipBucketHasToken then 429
  else if r.apiKey.isSome ∧ !r.keyBucketHasToken then 429
  else next r

/-- Embeds `BodySizeLimiter` (security.go:21): 413 when the declared
Content-Length exceeds the configured maximum; otherwise forward. -/
def bodySizeLimiter (maxSize : Int) (next : ChainHandler) : ChainHandler := fun r =>
  if r.contentLength > maxSize then 413 else next r

/-- Embeds `InputSanitizer` (security.go:148): 415 when a POST/PUT carries a
non-empty Content-Type that does not mention application/json. -/
def inputSanitizer (next : ChainHandler) : ChainHandler := fun r =>
  if (r.method = "POST" ∨ r.method = "PUT") ∧
      ¬ (r.contentType.containsSubstr "application/json") ∧ r.contentType ≠ "" then
    415
  else
    next r

/-- Embeds the chain construction in `Daemon.Start` (daemon.go:179-199), in
source order of the successive `handler = wrap(handler)` statements. -/
def buildChain (rateLimitEnabled : Bool) (maxRequestBodySize : Int)
    (mux : ChainHandler) : ChainHandler :=
  let handler := mux
  let handler := recoveryMiddleware handler
  let handler := secureHeaders handler
  let handler := if rateLimitEnabled then rateLimitMiddleware handler else handler
  let handler :=
    if maxRequestBodySize > 0 then bodySizeLimiter maxRequestBodySize handler else handler
  let handler := inputSanitizer handler
  handler

/-- C4 failing input evaluated: with rate limiting enabled and
max_request_body = 1000, a GET request whose declared length is 1001 and whose
IP bucket is empty receives 413, not the 429 the claim requires: the
body-size middleware executes before the rate limiter because it was wrapped
around it.  The answer is 413 whatever the mux would do. -/
theorem body_cap_decided_before_rate_limit :
    ∀ mux : ChainHandler,
      buildChain true 1000 mux
          { method := "GET"
            contentType := ""
            contentLength := 1001
            ipBucketHasToken := false
            apiKey := none
            keyBucketHasToken := false } = 413 := by
  intro mux
  rfl

/-!
## Request-body cap — src/pkg/middleware/security.go `limitedReader` /
`LimitReader` (lines 239-260) and the body read in `Daemon.handleProxy`
(daemon.go:443-460)

`limitedReader.Read` first fails with "read limit exceeded" when the
remaining allowance is not positive, then caps the buffer at the allowance
and reads from the source, passing the source's error through; `io.ReadAll`
keeps calling `Read` until it observes an error (io.EOF meaning success).
The source is the server's Content-Length request body: net/http wraps it in
an `io.LimitedReader` and transfer.go's early-EOF check attaches `io.EOF` to
the read that consumes the final body byte, so a read always returns the
last bytes *together with* io.EOF.  A body of exactly the allowance is
therefore accepted — the EOF arrives on the read that zeroes the allowance,
before the limit check can fire — while a longer body exhausts the allowance
with data still pending and the next `Read` fails having consumed only the
first `n` bytes.  The allowance and the remaining body fall in lockstep, so
the outcome depends only on their comparison, not on the buffer sizes
`io.ReadAll` uses; the embedding runs the schedule in which each read
returns one byte, with io.EOF accompanying the last one.
-/

/-- The `io.ReadAll` loop over `LimitReader src n` (security.go:245-255):
`.ok` with the bytes read when the source reports io.EOF first, `.error`
carrying the bytes consumed so far when the allowance runs out with body
still pending. -/
def readAllLimited : List Nat → Int → Except (List Nat) (List Nat)
  | src, n =>
    if n ≤ 0 then .error []
    else
      match src with
      | [] => .ok []
      | [x] => .ok [x]
      | x :: y :: xs =>
        match readAllLimited (y :: xs) (n - 1) with
        | .error consumed => .error (x :: consumed)
        | .ok rest => .ok (x :: rest)

/-- Evaluation of the read loop: with a positive allowance `n` the body is
read in full exactly when it has at most `n` bytes; otherwise the loop stops
with an error after consuming exactly the first `n` bytes. -/
theorem readAllLimited_spec (src : List Nat) : ∀ n : Int,
    readAllLimited src n =
      if n ≤ 0 then .error []
      else if (src.length : Int) ≤ n then .ok src
      else .error (src.take n.toNat) := by
  induction src with
  | nil =>
    intro n
    unfold readAllLimited
    by_cases hn : n ≤ 0
    · rw [if_pos hn, if_pos hn]
    · rw [if_neg hn, if_neg hn, if_pos (by simp only [List.length_nil]; omega)]
  | cons x xs ih =>
    intro n
    unfold readAllLimited
    by_cases hn : n ≤ 0
    · rw [if_pos hn, if_pos hn]
    · rw [if_neg hn, if_neg hn]
      cases xs with
      | nil =>
        rw [if_pos (by simp only [List.length_cons, List.length_nil]; omega)]
      | cons y ys =>
        dsimp only
        rw [ih (n - 1)]
        by_cases hn1 : n - 1 ≤ 0
        · rw [if_pos hn1, if_neg (by simp only [List.length_cons]; omega)]
          have hone : n = 1 := by omega
          subst hone
          rfl
        · rw [if_neg hn1]
          by_cases hlen : ((y :: ys).length : Int) ≤ n - 1
          · rw [if_pos hlen,
              if_pos (by simp only [List.length_cons] at hlen ⊢; omega)]
          · rw [if_neg hlen,
              if_neg (by simp only [List.length_cons] at hlen ⊢; omega)]
            have hnt : n.toNat = (n - 1).toNat + 1 := by omega
            rw [hnt]
            rfl

inductive BodyReadOutcome where
  | accepted (body : List Nat)
  | reject413
deriving DecidableEq, Repr

/-- Embeds the body-read step of `handleProxy` (daemon.go:443-460): when
`max_request_body` is positive the body is read through `LimitReader` and any
read error is answered with 413. -/
def proxyBodyRead (maxRequestBodySize : Int) (body : List Nat) : BodyReadOutcome :=
  if maxRequestBodySize > 0 then
    match readAllLimited body maxRequestBodySize with
    | .error _ => .reject413
    | .ok b => .accepted b
  else
    .accepted body

/-- C5: a request body of exactly max_request_body bytes is accepted — the
source returns the final bytes together with io.EOF, so `io.ReadAll` stops
before the allowance check can fail — and a body one byte larger is
rejected with 413 after consuming only the first max_request_body bytes, so
nothing beyond the cap is read.  (A declared Content-Length of exactly the
cap also passes the `BodySizeLimiter` middleware, whose check is strict
`>`.) -/
theorem exact_cap_body_boundary (maxSize : Int) (body : List Nat)
    (hpos : 0 < maxSize) :
    ((body.length : Int) = maxSize → proxyBodyRead maxSize body = .accepted body) ∧
      ((body.length : Int) = maxSize + 1 →
        proxyBodyRead maxSize body = .reject413 ∧
        readAllLimited body maxSize = .error (body.take maxSize.toNat)) := by
  constructor
  · intro hlen
    unfold proxyBodyRead
    rw [if_pos hpos, readAllLimited_spec, if_neg (by omega), if_pos (by omega)]
  · intro hlen
    unfold proxyBodyRead
    constructor
    · rw [if_pos hpos, readAllLimited_spec, if_neg (by omega), if_neg (by omega)]
    · rw [readAllLimited_spec, if_neg (by omega), if_neg (by omega)]

/-- C5 witness: the boundary theorem applied with max_request_body = 2 — the
2-byte body is accepted, the 3-byte body is rejected with 413 having
consumed only its first 2 bytes. -/
theorem exact_cap_body_boundary_witness :
    (0 : Int) < 2 ∧
      proxyBodyRead 2 [55, 56] = BodyReadOutcome.accepted [55, 56] ∧
      proxyBodyRead 2 [55, 56, 57] = BodyReadOutcome.reject413 ∧
      readAllLimited [55, 56, 57] 2 = Except.error [55, 56] :=
  ⟨by decide,
    (exact_cap_body_boundary 2 [55, 56] (by decide)).1 (by decide),
    ((exact_cap_body_boundary 2 [55, 56, 57] (by decide)).2 (by decide)).1,
    ((exact_cap_body_boundary 2 [55, 56, 57] (by decide)).2 (by decide)).2⟩

/-!
## Single-flight, sequential view — src/pkg/client/singleflight.go `Do`
(lines 30-57)

`Do` installs a record under the table lock, runs `fn` outside the lock, then
re-acquires the lock, deletes the record and releases the waiters.  There is
no `defer` and no `recover` anywhere in the function: if `fn` panics, the
panic unwinds `Do` before the `delete` at singleflight.go:52 and the
`wg.Done()` at line 54 run, so the record stays installed and its waiters are
never released.  The table is modelled by its key set; the behaviour of `fn`
is a parameter.
-/

inductive FnBehavior where
  | returns (val : List Nat) (err : Option String)
  | panics
deriving DecidableEq, Repr

inductive DoOutcome where
  | returned (val : List Nat) (err : Option String)
  | waited
  | panicked
deriving DecidableEq, Repr

/-- Embeds one sequential `SingleFlight.Do` call (singleflight.go:30) against
the current key table: join an existing record, or install, run `fn`, and —
only if `fn` returns — delete the record. -/
def sfDo (calls : List String) (key : String) (fn : FnBehavior) :
    DoOutcome × List String :=
  if calls.contains key then
    (.waited, calls)
  else
    let calls1 := key :: calls
    match fn with
    | .returns v e => (.returned v e, calls1.erase key)
    | .panics => (.panicked, calls1)

/-- C1 failing input evaluated: when `fn` panics inside `Do("k", fn)` on a
fresh table, the panic propagates out of `Do` (it is not converted to an
error) and the record for "k" remains installed; every later `Do("k", _)`
then joins the dead record and waits forever instead of observing a result. -/
theorem sf_panic_leaves_record_installed :
    sfDo [] "k" FnBehavior.panics = (DoOutcome.panicked, ["k"]) ∧
      ∀ fn, sfDo ["k"] "k" fn = (DoOutcome.waited, ["k"]) :=
  ⟨rfl, fun _ => rfl⟩

/-!
## Memory tier — src/pkg/cache/memory.go

The Go structure pairs a doubly-linked recency list with a map from key to
list node; all operations run under one lock.  The embedding keeps the single
authoritative recency list (front = most recently used); the map lookup
`m.items[key]` is the first entry with that key (`findEntry`), and
`removeElement` is removal of that entry plus the `totalBytes` adjustment.
`time.Now()` is an explicit `now` argument, `time.Time.After` is strict `>`.
-/

structure MemoryEntry where
  key : String
  value : List Nat
  expiresAt : Int
  size : Int
deriving DecidableEq, Repr

structure MemoryCache where
  capacity : Int
  entries : List MemoryEntry
  hits : Int
  misses : Int
  evictions : Int
  totalBytes : Int
deriving DecidableEq, Repr

/-- Lookup `m.items[key]`: the entry stored under `k`, if any. -/
def findEntry : List MemoryEntry → String → Option MemoryEntry
  | [], _ => none
  | e :: es, k => if e.key = k then some e else findEntry es k

/-- List part of `removeElement`: drop the entry stored under `k`. -/
def removeEntry : List MemoryEntry → String → List MemoryEntry
  | [], _ => []
  | e :: es, k => if e.key = k then es else e :: removeEntry es k

/-- Total of the recorded `size` fields, used by `CleanupExpired`'s
per-removal `totalBytes` adjustments. -/
def sumEntrySizes (es : List MemoryEntry) : Int :=
  (es.map (fun e => e.size)).sum

/-- Total value length over the live entries — the quantity the specification
says `totalBytes` tracks. -/
def sumValueBytes (es : List MemoryEntry) : Int :=
  (es.map (fun e => (e.value.length : Int))).sum

/-- Embeds `NewMemoryCache` (memory.go:31): non-positive capacities default
to 1000. -/
def newMemoryCache (capacity : Int) : MemoryCache :=
  { capacity := if capacity ≤ 0 then 1000 else capacity
    entries := []
    hits := 0
    misses := 0
    evictions := 0
    totalBytes := 0 }

/-- Embeds `evictOldest` (memory.go:174): remove the back (least recently
used) entry, if any. -/
def MemoryCache.evictOldest (m : MemoryCache) : MemoryCache :=
  match m.entries.getLast? with
  | none => m
  | some e =>
      { m with
        entries := m.entries.dropLast
        totalBytes := m.totalBytes - e.size
        evictions := m.evictions + 1 }

/-- Embeds `Get` (memory.go:43): miss, expiry-removal-and-miss, or hit with
move-to-front. -/
def MemoryCache.get (m : MemoryCache) (k : String) (now : Int) :
    Option (List Nat) × MemoryCache :=
  match findEntry m.entries k with
  | none => (none, { m with misses := m.misses + 1 })
  | some e =>
      if now > e.expiresAt then
        (none,
          { m with
            entries := removeEntry m.entries k
            totalBytes := m.totalBytes - e.size
            misses := m.misses + 1 })
      else
        (some e.value,
          { m with entries := e :: removeEntry m.entries k, hits := m.hits + 1 })

/-- Embeds `Set` (memory.go:70): replace in place (adjusting `totalBytes` by
new minus old and moving to front), or insert at the front and evict the back
entry when the count exceeds the capacity. -/
def MemoryCache.set (m : MemoryCache) (k : String) (v : List Nat) (ttl now : Int) :
    MemoryCache :=
  match findEntry m.entries k with
  | some e =>
      let e1 : MemoryEntry :=
        { key := e.key, value := v, expiresAt := now + ttl, size := (v.length : Int) }
      { m with
        entries := e1 :: removeEntry m.entries k
        totalBytes := m.totalBytes - e.size + (v.length : Int) }
  | none =>
      let e1 : MemoryEntry :=
        { key := k, value := v, expiresAt := now + ttl, size := (v.length : Int) }
      let m1 :=
        { m with
          entries := e1 :: m.entries
          totalBytes := m.totalBytes + (v.length : Int) }
      if (m1.entries.length : Int) > m1.capacity then m1.evictOldest else m1

/-- Embeds `Delete` (memory.go:109). -/
def MemoryCache.delete (m : MemoryCache) (k : String) : MemoryCache :=
  match findEntry m.entries k with
  | none => m
  | some e =>
      { m with
        entries := removeEntry m.entries k
        totalBytes := m.totalBytes - e.size }

/-- Embeds `Clear` (memory.go:120). -/
def MemoryCache.clear (m : MemoryCache) : MemoryCache :=
  { m with entries := [], totalBytes := 0 }

/-- Embeds `CleanupExpired` (memory.go:150): remove every expired entry,
subtracting each removed entry's recorded size from `totalBytes`. -/
def MemoryCache.cleanupExpired (m : MemoryCache) (now : Int) : MemoryCache :=
  { m with
    entries := m.entries.filter (fun e => !(decide (now > e.expiresAt)))
    totalBytes :=
      m.totalBytes - sumEntrySizes (m.entries.filter (fun e => decide (now > e.expiresAt))) }

/-- One public memory-tier operation together with the clock instant at which
it runs. -/
inductive MemOp where
  | opSet (k : String) (v : List Nat) (ttl now : Int)
  | opGet (k : String) (now : Int)
  | opDelete (k : String)
  | opSweep (now : Int)
  | opClear
deriving DecidableEq, Repr

def applyMemOp (m : MemoryCache) : MemOp → MemoryCache
  | .opSet k v ttl now => m.set k v ttl now
  | .opGet k now => (m.get k now).2
  | .opDelete k => m.delete k
  | .opSweep now => m.cleanupExpired now
  | .opClear => m.clear

def applyMemOps (m : MemoryCache) (ops : List MemOp) : MemoryCache :=
  ops.foldl applyMemOp m

/-- The C7 invariant: bounded count, accurate byte counter, and accurate
per-entry recorded sizes. -/
def MemInv (m : MemoryCache) : Prop :=
  (m.entries.length : Int) ≤ m.capacity ∧
    m.totalBytes = sumValueBytes m.entries ∧
    ∀ e ∈ m.entries, e.size = (e.value.length : Int)

theorem sumValueBytes_nil : sumValueBytes [] = 0 := rfl

theorem sumValueBytes_cons (a : MemoryEntry) (es : List MemoryEntry) :
    sumValueBytes (a :: es) = (a.value.length : Int) + sumValueBytes es := by
  simp [sumValueBytes]

theorem sumValueBytes_append (es fs : List MemoryEntry) :
    sumValueBytes (es ++ fs) = sumValueBytes es + sumValueBytes fs := by
  simp [sumValueBytes]

theorem findEntry_mem {es : List MemoryEntry} {k : String} {e : MemoryEntry}
    (h : findEntry es k = some e) : e ∈ es := by
  induction es with
  | nil => simp [findEntry] at h
  | cons a as ih =>
    by_cases hk : a.key = k
    · simp only [findEntry, if_pos hk, Option.some.injEq] at h
      simp [h]
    · simp only [findEntry, if_neg hk] at h
      exact List.mem_cons_of_mem _ (ih h)

theorem removeEntry_subset {es : List MemoryEntry} {k : String} {e' : MemoryEntry}
    (h : e' ∈ removeEntry es k) : e' ∈ es := by
  induction es with
  | nil => simp [removeEntry] at h
  | cons a as ih =>
    by_cases hk : a.key = k
    · simp only [removeEntry, if_pos hk] at h
      exact List.mem_cons_of_mem _ h
    · simp only [removeEntry, if_neg hk, List.mem_cons] at h
      rcases h with h | h
      · simp [h]
      · exact List.mem_cons_of_mem _ (ih h)

theorem removeEntry_length {es : List MemoryEntry} {k : String} {e : MemoryEntry}
    (h : findEntry es k = some e) : (removeEntry es k).length + 1 = es.length := by
  induction es with
  | nil => simp [findEntry] at h
  | cons a as ih =>
    by_cases hk : a.key = k
    · simp [removeEntry, if_pos hk]
    · simp only [findEntry, if_neg hk] at h
      simp only [removeEntry, if_neg hk, List.length_cons]
      have := ih h
      omega

theorem removeEntry_sumValueBytes {es : List MemoryEntry} {k : String} {e : MemoryEntry}
    (h : findEntry es k = some e) :
    sumValueBytes (removeEntry es k) = sumValueBytes es - (e.value.length : Int) := by
  induction es with
  | nil => simp [findEntry] at h
  | cons a as ih =>
    by_cases hk : a.key = k
    · simp only [findEntry, if_pos hk, Option.some.injEq] at h
      subst h
      simp only [removeEntry, if_pos hk, sumValueBytes_cons]
      ring
    · simp only [findEntry, if_neg hk] at h
      simp only [removeEntry, if_neg hk, sumValueBytes_cons, ih h]
      ring

theorem sumEntrySizes_eq_sumValueBytes {es : List MemoryEntry}
    (h : ∀ e ∈ es, e.size = (e.value.length : Int)) :
    sumEntrySizes es = sumValueBytes es := by
  induction es with
  | nil => rfl
  | cons a as ih =>
    have ha := h a (by simp)
    have has : ∀ e ∈ as, e.size = (e.value.length : Int) := fun e he => h e (by simp [he])
    simp [sumEntrySizes, sumValueBytes, ha] at *
    simpa [sumEntrySizes, sumValueBytes] using ih has

theorem dropLast_facts {es : List MemoryEntry} {e : MemoryEntry}
    (h : es.getLast? = some e) :
    sumValueBytes es.dropLast = sumValueBytes es - (e.value.length : Int) ∧
      es.dropLast.length + 1 = es.length ∧ ∀ x ∈ es.dropLast, x ∈ es := by
  have hne : es ≠ [] := by
    rintro rfl
    simp at h
  have hsplit : es.dropLast ++ [es.getLast hne] = es := List.dropLast_append_getLast hne
  have hlast : es.getLast hne = e := by
    have := List.getLast?_eq_getLast es hne
    rw [this] at h
    exact (Option.some.injEq _ _ ▸ h)
  rw [hlast] at hsplit
  refine ⟨?_, ?_, ?_⟩
  · have hsum : sumValueBytes es = sumValueBytes es.dropLast + (e.value.length : Int) := by
      conv_lhs => rw [← hsplit]
      rw [sumValueBytes_append]
      simp [sumValueBytes]
    omega
  · have hlen := congrArg List.length hsplit
    simpa using hlen
  · intro x hx
    rw [← hsplit]
    exact List.mem_append_left _ hx

theorem sumValueBytes_filter_not (p : MemoryEntry → Bool) (es : List MemoryEntry) :
    sumValueBytes (es.filter (fun e => !(p e))) =
      sumValueBytes es - sumValueBytes (es.filter p) := by
  induction es with
  | nil => simp [sumValueBytes]
  | cons a as ih =>
    cases hp : p a <;>
      · simp only [List.filter_cons, hp, Bool.not_true, Bool.not_false, if_true, if_false,
          sumValueBytes_cons, ih, Bool.false_eq_true, Bool.true_eq_false, ite_true, ite_false]
        ring

/-- Bookkeeping facts about `evictOldest` (memory.go:174), assuming the byte
counter and the recorded sizes are accurate. -/
theorem evictOldest_facts (m : MemoryCache)
    (hbytes : m.totalBytes = sumValueBytes m.entries)
    (hsizes : ∀ e ∈ m.entries, e.size = (e.value.length : Int)) :
    m.evictOldest.capacity = m.capacity ∧
      (m.entries ≠ [] → m.evictOldest.entries.length + 1 = m.entries.length) ∧
      m.evictOldest.totalBytes = sumValueBytes m.evictOldest.entries ∧
      ∀ e ∈ m.evictOldest.entries, e.size = (e.value.length : Int) := by
  unfold MemoryCache.evictOldest
  cases hl : m.entries.getLast? with
  | none =>
    have : m.entries = [] := by
      cases hes : m.entries with
      | nil => rfl
      | cons b bs => rw [hes, List.getLast?_eq_getLast _ (by simp)] at hl; simp at hl
    exact ⟨rfl, fun hne => absurd this hne, hbytes, hsizes⟩
  | some le =>
    obtain ⟨hdsum, hdlen, hdmem⟩ := dropLast_facts hl
    have hlemem : le ∈ m.entries := by
      obtain ⟨hne, hx⟩ := List.mem_getLast?_eq_getLast (l := m.entries) (x := le) (by
        rw [Option.mem_def, hl])
      rw [hx]
      exact List.getLast_mem hne
    have hlesize := hsizes le hlemem
    refine ⟨rfl, fun _ => hdlen, ?_, fun e he => hsizes e (hdmem e he)⟩
    dsimp only
    omega

theorem memInv_get {m : MemoryCache} (k : String) (now : Int) (h : MemInv m) :
    MemInv (m.get k now).2 := by
  obtain ⟨hlen, hbytes, hsizes⟩ := h
  unfold MemoryCache.get
  cases hf : findEntry m.entries k with
  | none => exact ⟨hlen, hbytes, hsizes⟩
  | some e =>
    dsimp only
    have hmem := findEntry_mem hf
    have hsize := hsizes e hmem
    have hrl := removeEntry_length hf
    have hrs := removeEntry_sumValueBytes hf
    by_cases hexp : now > e.expiresAt
    · rw [if_pos hexp]
      refine ⟨?_, ?_, ?_⟩
      · dsimp only
        omega
      · dsimp only
        rw [hrs]
        omega
      · exact fun x hx => hsizes x (removeEntry_subset hx)
    · rw [if_neg hexp]
      refine ⟨?_, ?_, ?_⟩
      · dsimp only [List.length_cons]
        omega
      · dsimp only
        rw [sumValueBytes_cons, hrs]
        omega
      · intro x hx
        rcases List.mem_cons.mp hx with rfl | hx
        · exact hsize
        · exact hsizes x (removeEntry_subset hx)

theorem memInv_set {m : MemoryCache} (k : String) (v : List Nat) (ttl now : Int)
    (h : MemInv m) : MemInv (m.set k v ttl now) := by
  obtain ⟨hlen, hbytes, hsizes⟩ := h
  unfold MemoryCache.set
  cases hf : findEntry m.entries k with
  | some e =>
    have hmem := findEntry_mem hf
    have hsize := hsizes e hmem
    have hrl := removeEntry_length hf
    have hrs := removeEntry_sumValueBytes hf
    refine ⟨?_, ?_, ?_⟩
    · dsimp only [List.length_cons]
      omega
    · dsimp only
      rw [sumValueBytes_cons, hrs]
      dsimp only
      omega
    · intro x hx
      rcases List.mem_cons.mp hx with rfl | hx
      · rfl
      · exact hsizes x (removeEntry_subset hx)
  | none =>
    dsimp only
    set e1 : MemoryEntry :=
      { key := k, value := v, expiresAt := now + ttl, size := (v.length : Int) } with he1
    set m1 : MemoryCache :=
      { m with entries := e1 :: m.entries, totalBytes := m.totalBytes + (v.length : Int) }
      with hm1
    have hm1bytes : m1.totalBytes = sumValueBytes m1.entries := by
      rw [hm1]
      dsimp only
      rw [sumValueBytes_cons, he1]
      dsimp only
      omega
    have hm1sizes : ∀ x ∈ m1.entries, x.size = (x.value.length : Int) := by
      intro x hx
      rw [hm1] at hx
      rcases List.mem_cons.mp hx with rfl | hx
      · rw [he1]
      · exact hsizes x hx
    have hm1len : m1.entries.length = m.entries.length + 1 := by
      rw [hm1]
      rfl
    have hm1cap : m1.capacity = m.capacity := by
      rw [hm1]
    by_cases hcap : (m1.entries.length : Int) > m1.capacity
    · rw [if_pos hcap]
      obtain ⟨hecap, helen, hebytes, hesizes⟩ := evictOldest_facts m1 hm1bytes hm1sizes
      have hne : m1.entries ≠ [] := by
        rw [hm1]
        simp
      refine ⟨?_, hebytes, hesizes⟩
      have := helen hne
      omega
    · rw [if_neg hcap]
      exact ⟨by omega, hm1bytes, hm1sizes⟩

theorem memInv_delete {m : MemoryCache} (k : String) (h : MemInv m) :
    MemInv (m.delete k) := by
  obtain ⟨hlen, hbytes, hsizes⟩ := h
  unfold MemoryCache.delete
  cases hf : findEntry m.entries k with
  | none => exact ⟨hlen, hbytes, hsizes⟩
  | some e =>
    have hmem := findEntry_mem hf
    have hsize := hsizes e hmem
    have hrl := removeEntry_length hf
    have hrs := removeEntry_sumValueBytes hf
    refine ⟨?_, ?_, ?_⟩
    · dsimp only
      omega
    · dsimp only
      rw [hrs]
      omega
    · exact fun x hx => hsizes x (removeEntry_subset hx)

theorem memInv_clear {m : MemoryCache} (h : MemInv m) : MemInv m.clear := by
  obtain ⟨hlen, hbytes, hsizes⟩ := h
  unfold MemoryCache.clear
  refine ⟨?_, rfl, by simp⟩
  dsimp only [List.length_nil]
  omega

theorem memInv_cleanupExpired {m : MemoryCache} (now : Int) (h : MemInv m) :
    MemInv (m.cleanupExpired now) := by
  obtain ⟨hlen, hbytes, hsizes⟩ := h
  unfold MemoryCache.cleanupExpired
  refine ⟨?_, ?_, ?_⟩
  · have := List.length_filter_le (fun e => !(decide (now > e.expiresAt))) m.entries
    dsimp only
    omega
  · have hsplit := sumValueBytes_filter_not (fun e => decide (now > e.expiresAt)) m.entries
    have hremsizes :
        sumEntrySizes (m.entries.filter (fun e => decide (now > e.expiresAt))) =
          sumValueBytes (m.entries.filter (fun e => decide (now > e.expiresAt))) := by
      refine sumEntrySizes_eq_sumValueBytes ?_
      intro e he
      exact hsizes e (List.mem_of_mem_filter he)
    dsimp only
    rw [hsplit, hremsizes]
    omega
  · intro x hx
    exact hsizes x (List.mem_of_mem_filter hx)

theorem memInv_applyOp {m : MemoryCache} (op : MemOp) (h : MemInv m) :
    MemInv (applyMemOp m op) := by
  cases op with
  | opSet k v ttl now => exact memInv_set k v ttl now h
  | opGet k now => exact memInv_get k now h
  | opDelete k => exact memInv_delete k h
  | opSweep now => exact memInv_cleanupExpired now h
  | opClear => exact memInv_clear h

theorem memInv_applyOps {m : MemoryCache} (ops : List MemOp) (h : MemInv m) :
    MemInv (applyMemOps m ops) := by
  induction ops generalizing m with
  | nil => exact h
  | cons op ops ih => exact ih (memInv_applyOp op h)

theorem memInv_new (capacity : Int) : MemInv (newMemoryCache capacity) := by
  unfold newMemoryCache
  refine ⟨?_, rfl, by simp⟩
  dsimp only [List.length_nil]
  split <;> omega

/-- C7: starting from a freshly constructed memory cache, every sequence of
public operations (set, get, delete, sweep-expired, clear, each at an
arbitrary clock instant) leaves the entry count at or below the capacity
fixed at construction and keeps `totalBytes` equal to the sum of the stored
value lengths. -/
theorem memory_cache_invariants (capacity : Int) (ops : List MemOp) :
    ((applyMemOps (newMemoryCache capacity) ops).entries.length : Int) ≤
        (applyMemOps (newMemoryCache capacity) ops).capacity ∧
      (applyMemOps (newMemoryCache capacity) ops).totalBytes =
        sumValueBytes (applyMemOps (newMemoryCache capacity) ops).entries :=
  have h := memInv_applyOps ops (memInv_new capacity)
  ⟨h.1, h.2.1⟩

theorem findEntry_key {es : List MemoryEntry} {k : String} {e : MemoryEntry}
    (h : findEntry es k = some e) : e.key = k := by
  induction es with
  | nil => simp [findEntry] at h
  | cons a as ih =>
    by_cases hk : a.key = k
    · simp only [findEntry, if_pos hk, Option.some.injEq] at h
      rw [← h]
      exact hk
    · simp only [findEntry, if_neg hk] at h
      exact ih h

theorem memGet_of_front {m : MemoryCache} {k : String} {now' : Int} {e1 : MemoryEntry}
    {rest : List MemoryEntry} (hm : m.entries = e1 :: rest) (hk : e1.key = k)
    (hfresh : ¬ now' > e1.expiresAt) : (m.get k now').1 = some e1.value := by
  unfold MemoryCache.get
  rw [hm]
  have hfind : findEntry (e1 :: rest) k = some e1 := by
    rw [findEntry, if_pos hk]
  rw [hfind]
  dsimp only
  rw [if_neg hfresh]

/-- After `Set`, the written entry sits at the front of the recency list with
expiry `now + ttl` (the back eviction cannot remove it when the capacity is
positive). -/
theorem set_puts_front (m : MemoryCache) (k : String) (v : List Nat) (ttl now : Int)
    (hcap : 0 < m.capacity) :
    ∃ rest, (m.set k v ttl now).entries =
      ({ key := k, value := v, expiresAt := now + ttl, size := (v.length : Int) } :
        MemoryEntry) :: rest := by
  unfold MemoryCache.set
  cases hf : findEntry m.entries k with
  | some e =>
    dsimp only
    rw [findEntry_key hf]
    exact ⟨removeEntry m.entries k, rfl⟩
  | none =>
    dsimp only
    generalize ({ key := k, value := v, expiresAt := now + ttl, size := (v.length : Int) } :
      MemoryEntry) = E
    cases hes : m.entries with
    | nil =>
      have hcond : ¬ (((E :: ([] : List MemoryEntry)).length : Int) > m.capacity) := by
        simp only [List.length_cons, List.length_nil]
        omega
      rw [if_neg hcond]
      exact ⟨[], rfl⟩
    | cons b bs =>
      split
      · unfold MemoryCache.evictOldest
        dsimp only
        cases hl : (E :: b :: bs).getLast? with
        | none => simp at hl
        | some le =>
          dsimp only
          exact ⟨(b :: bs).dropLast, List.dropLast_cons₂⟩
      · exact ⟨b :: bs, rfl⟩

/-!
## Layered cache — src/pkg/cache/layered.go

The durable tier (L2) is modelled by its contents, an upsert map from key to
value; whether a given L2 write fails is an environment parameter, since it
depends on the database, not on the cache state.  `LayeredCache.ttl` is the
default TTL `T_default` fixed at construction (layered.go:21).
-/

/-- The durable tier's `Set` is an upsert keyed by fingerprint (§4.3). -/
def upsertL2 : List (String × List Nat) → String → List Nat → List (String × List Nat)
  | [], k, v => [(k, v)]
  | (k0, v0) :: rest, k, v =>
      if k0 = k then (k0, v) :: rest else (k0, v0) :: upsertL2 rest k v

structure LayeredCache where
  l1 : MemoryCache
  l2 : List (String × List Nat)
  ttl : Int
deriving DecidableEq, Repr

/-- Embeds `LayeredCache.Set` (layered.go:51): store in L2 first and return
its error without touching L1; on L2 success store in L1 with the default
TTL (the memory `Set` always returns nil).  The returned flag is true when
the call errors. -/
def LayeredCache.set (c : LayeredCache) (k : String) (v : List Nat) (now : Int)
    (l2WriteFails : Bool) : Bool × LayeredCache :=
  if l2WriteFails then
    (true, c)
  else
    (false, { c with l2 := upsertL2 c.l2 k v, l1 := c.l1.set k v c.ttl now })

/-- C6: a layered `set` writes the durable tier first — if the durable write
fails the error propagates and neither tier changes (no memory-only ghost);
on durable success the call succeeds, the durable tier holds the upserted
value, and the memory tier serves the value until `now + T_default` passes. -/
theorem layered_set_durable_first (c : LayeredCache) (k : String) (v : List Nat)
    (now : Int) (hcap : 0 < c.l1.capacity) :
    c.set k v now true = (true, c) ∧
      (c.set k v now false).1 = false ∧
      (c.set k v now false).2.l2 = upsertL2 c.l2 k v ∧
      ∀ now', ¬ now' > now + c.ttl →
        ((c.set k v now false).2.l1.get k now').1 = some v := by
  refine ⟨rfl, rfl, rfl, ?_⟩
  intro now' hfresh
  obtain ⟨rest, hfront⟩ := set_puts_front c.l1 k v c.ttl now hcap
  have hget :=
    @memGet_of_front ((c.set k v now false).2.l1) k now'
      { key := k, value := v, expiresAt := now + c.ttl, size := (v.length : Int) }
      rest hfront rfl hfresh
  exact hget

/-- C6 witness: the theorem applied to a concrete layered cache (capacity 10,
default TTL 60) at time 0, with the memory tier read back at time 30. -/
theorem layered_set_durable_first_witness :
    0 < (newMemoryCache 10).capacity ∧
      ¬ (30 : Int) > 0 + (60 : Int) ∧
      ({ l1 := newMemoryCache 10, l2 := [], ttl := 60 } : LayeredCache).set "k" [1, 2] 0 true =
        (true, { l1 := newMemoryCache 10, l2 := [], ttl := 60 }) ∧
      ((({ l1 := newMemoryCache 10, l2 := [], ttl := 60 } : LayeredCache).set "k" [1, 2] 0
            false).2.l1.get "k" 30).1 = some [1, 2] :=
  ⟨by decide, by decide,
    (layered_set_durable_first { l1 := newMemoryCache 10, l2 := [], ttl := 60 } "k" [1, 2] 0
        (by decide)).1,
    (layered_set_durable_first { l1 := newMemoryCache 10, l2 := [], ttl := 60 } "k" [1, 2] 0
        (by decide)).2.2.2 30 (by decide)⟩

/-!
## SSRF validator — src/pkg/middleware/security.go (lines 37-145)

A URL reaches the validator already parsed: its scheme, its hostname, and
the result of `net.ParseIP(hostname)` (some IP exactly when the hostname is
an IP literal).  DNS is the environment: `resolved` is what `net.LookupIP`
would return for the hostname (`none` = resolution error).  IPs are either
4-byte or 16-byte as produced by `net.ParseIP`; the Go `Contains` checks on
mixed lengths are always false, so each family keeps its own ranges.
-/

inductive GoIP where
  | v4 (a b c d : Nat)
  | v6 (b0 b1 : Nat) (rest : List Nat)
deriving DecidableEq, Repr

/-- The 14 remaining bytes of the IPv6 loopback address ::1. -/
def v6LoopbackRest : List Nat := [0, 0, 0, 0, 0, 0, 0, 0, 0, 0, 0, 0, 0, 1]

/-- Go `net.IP.IsLoopback`: first octet 127 for IPv4, equality with ::1 for
IPv6. -/
def goIsLoopback : GoIP → Bool
  | .v4 a _ _ _ => a == 127
  | .v6 b0 b1 rest => b0 == 0 && b1 == 0 && rest == v6LoopbackRest

/-- Go `net.IP.IsLinkLocalUnicast`: 169.254.0.0/16 for IPv4, fe80::/10 for
IPv6. -/
def goIsLinkLocalUnicast : GoIP → Bool
  | .v4 a b _ _ => a == 169 && b == 254
  | .v6 b0 b1 _ => b0 == 0xfe && b1 &&& 0xc0 == 0x80

/-- Go `net.IP.IsLinkLocalMulticast`: 224.0.0.0/24 for IPv4, ff02::/16 for
IPv6. -/
def goIsLinkLocalMulticast : GoIP → Bool
  | .v4 a b c _ => a == 224 && b == 0 && c == 0
  | .v6 b0 b1 _ => b0 == 0xff && b1 &&& 0x0f == 0x02

/-- Containment in the explicit CIDR list of `isPrivateIP`
(security.go:126-135): 10.0.0.0/8, 172.16.0.0/12, 192.168.0.0/16,
169.254.0.0/16, 127.0.0.0/8 for IPv4; ::1/128, fe80::/10, fc00::/7 for
IPv6. -/
def inPrivateCIDRs : GoIP → Bool
  | .v4 a b _ _ =>
      (a == 10) || (a == 172 && b &&& 0xf0 == 16) || (a == 192 && b == 168) ||
        (a == 169 && b == 254) || (a == 127)
  | .v6 b0 b1 rest =>
      (b0 == 0 && b1 == 0 && rest == v6LoopbackRest) ||
        (b0 == 0xfe && b1 &&& 0xc0 == 0x80) || (b0 &&& 0xfe == 0xfc)

/-- Embeds `isPrivateIP` (security.go:114): loopback, link-local unicast,
link-local multicast, then the CIDR list. -/
def isPrivateIP (ip : GoIP) : Bool :=
  goIsLoopback ip || goIsLinkLocalUnicast ip || goIsLinkLocalMulticast ip ||
    inPrivateCIDRs ip

structure SSRFProtection where
  allowedHosts : List String
  blockPrivate : Bool
deriving DecidableEq, Repr

/-- Embeds `strings.ToLower` as used on hostnames: lower-case every
character (hostnames are ASCII, where Go's Unicode mapping and the per-char
mapping agree). -/
def goToLower (s : String) : String := ⟨s.data.map Char.toLower⟩

/-- Embeds `NewSSRFProtection` (security.go:44): allow-list entries are
lower-cased on construction. -/
def newSSRFProtection (hosts : List String) (blockPrivate : Bool) : SSRFProtection :=
  { allowedHosts := hosts.map goToLower, blockPrivate := blockPrivate }

structure ParsedURL where
  scheme : String
  hostname : String
  parsedIP : Option GoIP
deriving DecidableEq, Repr

inductive SSRFError where
  | invalidScheme
  | hostNotAllowed
  | privateIPLiteral
  | resolveFailed
  | resolvesPrivate
deriving DecidableEq, Repr

/-- Embeds `checkPrivateIP` (security.go:87): an IP-literal host is checked
directly; otherwise the hostname is resolved (an error rejects) and every
resolved address is checked. -/
def checkPrivateIP (hostIP : Option GoIP) (resolved : Option (List GoIP)) :
    Option SSRFError :=
  match hostIP with
  | some ip => if isPrivateIP ip then some .privateIPLiteral else none
  | none =>
      match resolved with
      | none => some .resolveFailed
      | some ips => if ips.any isPrivateIP then some .resolvesPrivate else none

/-- Embeds `ValidateURL` (security.go:57): scheme check, allow-list check
(only when the allow-list is non-empty, against the lower-cased hostname),
then the private-IP check when `blockPrivate` is set.  `none` means the URL
is accepted. -/
def validateURL (s : SSRFProtection) (u : ParsedURL) (resolved : Option (List GoIP)) :
    Option SSRFError :=
  if u.scheme ≠ "http" ∧ u.scheme ≠ "https" then some .invalidScheme
  else if s.allowedHosts ≠ [] ∧ ¬ (s.allowedHosts.contains (goToLower u.hostname) = true) then
    some .hostNotAllowed
  else if s.blockPrivate then checkPrivateIP u.parsedIP resolved
  else none

/-- C8: the validator rejects every URL whose scheme is neither http nor
https; with private-blocking configured it rejects every IP-literal host in
the private/loopback/link-local ranges and every hostname with any resolved
address in those ranges; and it accepts an https URL whose host is on the
allow-list and resolves only to non-private addresses. -/
theorem ssrf_validation (s : SSRFProtection) (u : ParsedURL)
    (resolved : Option (List GoIP)) :
    (u.scheme ≠ "http" → u.scheme ≠ "https" → validateURL s u resolved ≠ none) ∧
      (∀ ip, s.blockPrivate = true → u.parsedIP = some ip → isPrivateIP ip = true →
        validateURL s u resolved ≠ none) ∧
      (∀ ips ip, s.blockPrivate = true → u.parsedIP = none → resolved = some ips →
        ip ∈ ips → isPrivateIP ip = true → validateURL s u resolved ≠ none) ∧
      (∀ ips, u.scheme = "https" →
        s.allowedHosts.contains (goToLower u.hostname) = true →
        u.parsedIP = none → resolved = some ips →
        ips.all (fun ip => !(isPrivateIP ip)) = true → validateURL s u resolved = none) := by
  refine ⟨?_, ?_, ?_, ?_⟩
  · intro h1 h2
    unfold validateURL
    rw [if_pos ⟨h1, h2⟩]
    simp
  · intro ip hb hip hpriv
    unfold validateURL
    split_ifs with h1 h2
    · simp
    · simp
    · unfold checkPrivateIP
      rw [hip]
      dsimp only
      rw [if_pos hpriv]
      simp
  · intro ips ip hb hnone hres hmem hpriv
    unfold validateURL
    split_ifs with h1 h2
    · simp
    · simp
    · unfold checkPrivateIP
      rw [hnone]
      dsimp only
      rw [hres]
      dsimp only
      rw [if_pos (by
        rw [List.any_eq_true]
        exact ⟨ip, hmem, hpriv⟩)]
      simp
  · intro ips hscheme hallow hnone hres hall
    unfold validateURL
    rw [if_neg (by
      rintro ⟨h1, h2⟩
      exact h2 hscheme)]
    rw [if_neg (by
      rintro ⟨h1, h2⟩
      exact h2 hallow)]
    split
    · unfold checkPrivateIP
      rw [hnone]
      dsimp only
      rw [hres]
      dsimp only
      rw [if_neg (by
        rw [List.any_eq_true]
        rintro ⟨x, hx, hxp⟩
        rw [List.all_eq_true] at hall
        have := hall x hx
        simp [hxp] at this)]
    · rfl

/-- C8 witness: the theorem applied at the boundary cases of §8 — with an
allow-list of api.example.com and private-blocking on, reject ftp scheme,
reject the literal 10.0.0.1, reject a hostname resolving to 192.168.1.5,
accept https to api.example.com resolving to 93.184.216.34. -/
theorem ssrf_validation_witness :
    validateURL (newSSRFProtection ["api.example.com"] true)
        { scheme := "ftp", hostname := "api.example.com", parsedIP := none }
        (some [GoIP.v4 93 184 216 34]) ≠ none ∧
      validateURL (newSSRFProtection ["api.example.com"] true)
        { scheme := "http", hostname := "10.0.0.1", parsedIP := some (GoIP.v4 10 0 0 1) }
        none ≠ none ∧
      validateURL (newSSRFProtection ["api.example.com"] true)
        { scheme := "https", hostname := "api.example.com", parsedIP := none }
        (some [GoIP.v4 93 184 216 34, GoIP.v4 192 168 1 5]) ≠ none ∧
      validateURL (newSSRFProtection ["api.example.com"] true)
        { scheme := "https", hostname := "api.example.com", parsedIP := none }
        (some [GoIP.v4 93 184 216 34]) = none :=
  ⟨(ssrf_validation (newSSRFProtection ["api.example.com"] true)
      { scheme := "ftp", hostname := "api.example.com", parsedIP := none }
      (some [GoIP.v4 93 184 216 34])).1 (by decide) (by decide),
    (ssrf_validation (newSSRFProtection ["api.example.com"] true)
      { scheme := "http", hostname := "10.0.0.1", parsedIP := some (GoIP.v4 10 0 0 1) }
      none).2.1 (GoIP.v4 10 0 0 1) (by decide) (by decide) (by decide),
    (ssrf_validation (newSSRFProtection ["api.example.com"] true)
      { scheme := "https", hostname := "api.example.com", parsedIP := none }
      (some [GoIP.v4 93 184 216 34, GoIP.v4 192 168 1 5])).2.2.1
      [GoIP.v4 93 184 216 34, GoIP.v4 192 168 1 5] (GoIP.v4 192 168 1 5) (by decide)
      (by decide) (by decide) (by decide) (by decide),
    (ssrf_validation (newSSRFProtection ["api.example.com"] true)
      { scheme := "https", hostname := "api.example.com", parsedIP := none }
      (some [GoIP.v4 93 184 216 34])).2.2.2 [GoIP.v4 93 184 216 34] (by decide) (by decide)
      (by decide) (by decide) (by decide)⟩

/-!
## Cache key derivation — src/unnamed/part_006, `GenerateKey` (lines 54-60)

`GenerateKey` writes method, path and body in order into one streaming
SHA-256 instance and hex-encodes `Sum(nil)`.  A streaming hash instance is
its accumulated input: `Write(b)` appends `b` and `Sum(nil)` applies the
digest to the accumulated bytes, so the digest function (SHA-256 in the
source) is the parameter `h` and the accumulation is explicit.  Go strings
are byte strings, modelled as lists of bytes.
-/

/-- The effect of `hash.Write` on the accumulated input. -/
def hashWrite (acc chunk : List Nat) : List Nat := acc ++ chunk

/-- One hex digit, lower case, as produced by `hex.EncodeToString`. -/
def hexChar (n : Nat) : Char :=
  if n < 10 then Char.ofNat (48 + n) else Char.ofNat (87 + n)

/-- Embeds `hex.EncodeToString`: two lower-case hex digits per byte. -/
def hexEncode (bs : List Nat) : String :=
  ⟨bs.foldr (fun b acc => hexChar (b / 16) :: hexChar (b % 16) :: acc) []⟩

/-- Embeds `GenerateKey` (part_006): a fresh hash, three writes in order,
hex-encoded digest. -/
def GenerateKey (h : List Nat → List Nat) (method path body : List Nat) : String :=
  let st : List Nat := []
  let st := hashWrite st method
  let st := hashWrite st path
  let st := hashWrite st body
  hexEncode (h st)

/-- C10: `GenerateKey` is the hex-encoded digest of the in-order byte
concatenation method ++ path ++ body (`h` being the digest function, SHA-256
in the source); consequently any two triples with equal concatenations
receive the same cache key and share one cache entry. -/
theorem generateKey_is_digest_of_concat (h : List Nat → List Nat)
    (m p b m2 p2 b2 : List Nat) :
    GenerateKey h m p b = hexEncode (h (m ++ p ++ b)) ∧
      (m ++ p ++ b = m2 ++ p2 ++ b2 → GenerateKey h m p b = GenerateKey h m2 p2 b2) := by
  constructor
  · unfold GenerateKey hashWrite
    simp only [List.nil_append, List.append_assoc]
  · intro he
    unfold GenerateKey hashWrite
    simp only [List.nil_append, List.append_assoc] at he ⊢
    rw [he]

/-- C10 witness: the colliding pair from the claim — ("GET", "/a", "b") and
("GE", "T/a", "b") in ASCII bytes — with the identity digest function. -/
theorem generateKey_is_digest_of_concat_witness :
    ([71, 69, 84] ++ [47, 97] ++ [98] : List Nat) = [71, 69] ++ [84, 47, 97] ++ [98] ∧
      GenerateKey (fun l => l) [71, 69, 84] [47, 97] [98] =
        GenerateKey (fun l => l) [71, 69] [84, 47, 97] [98] :=
  ⟨by decide,
    (generateKey_is_digest_of_concat (fun l => l) [71, 69, 84] [47, 97] [98] [71, 69]
        [84, 47, 97] [98]).2 (by decide)⟩

/-!
## Single-flight, interleaving semantics — src/pkg/client/singleflight.go

N threads each execute `Do(key, f_i)` for one shared key; `f_i` returns the
fixed pair `f i`.  Each atomic step is one lock-protected region or one
unlocked action of `Do` (singleflight.go:30-57):

  * lookup under the lock: join the installed record as a waiter, or append
    a fresh record (its id is the next index into `published`), point the
    table at it, and proceed as its leader;
  * the leader runs `fn` outside the lock, obtaining `f i`;
  * the leader deletes the table entry under the lock (the table holds the
    leader's own record; the delete empties it);
  * the leader calls `wg.Done()`, publishing its result into the record;
  * a waiter whose record has a published result returns it.

`published` is append-only: slot `rid` is `none` until record `rid`'s leader
publishes.  A thread's program counter records which record it leads or
awaits and the result it carries.
-/

structure SFRes where
  val : List Nat
  err : Option String
deriving DecidableEq, Repr

inductive TPC where
  | start
  | run (rid : Nat)
  | postrun (rid : Nat) (res : SFRes)
  | postdel (rid : Nat) (res : SFRes)
  | doneL (rid : Nat) (res : SFRes)
  | wait (rid : Nat)
  | doneW (rid : Nat) (res : SFRes)
deriving DecidableEq, Repr

structure SFState where
  threads : List TPC
  published : List (Option SFRes)
  table : Option Nat
deriving DecidableEq, Repr

/-- The record a thread references, if any. -/
def ridOf : TPC → Option Nat
  | .start => none
  | .run rid => some rid
  | .postrun rid _ => some rid
  | .postdel rid _ => some rid
  | .doneL rid _ => some rid
  | .wait rid => some rid
  | .doneW rid _ => some rid

/-- The record a thread leads (it entered via install, so its `fn` runs). -/
def leadsAt : TPC → Option Nat
  | .run rid => some rid
  | .postrun rid _ => some rid
  | .postdel rid _ => some rid
  | .doneL rid _ => some rid
  | _ => none

/-- The result a leader carries after its `fn` returned. -/
def leaderResult : TPC → Option (Nat × SFRes)
  | .postrun rid r => some (rid, r)
  | .postdel rid r => some (rid, r)
  | .doneL rid r => some (rid, r)
  | _ => none

/-- A leader stage before `wg.Done` (record installed, result unpublished). -/
def prePubAt : TPC → Option Nat
  | .run rid => some rid
  | .postrun rid _ => some rid
  | .postdel rid _ => some rid
  | _ => none

/-- One atomic step of one thread, as dictated by `Do`. -/
inductive SFStep (f : Nat → SFRes) : SFState → SFState → Prop where
  | startWait (s : SFState) (i rid : Nat)
      (hpc : s.threads[i]? = some .start) (ht : s.table = some rid) :
      SFStep f s { s with threads := s.threads.set i (.wait rid) }
  | startLead (s : SFState) (i : Nat)
      (hpc : s.threads[i]? = some .start) (ht : s.table = none) :
      SFStep f s
        { threads := s.threads.set i (.run s.published.length)
          published := s.published ++ [none]
          table := some s.published.length }
  | runFn (s : SFState) (i rid : Nat)
      (hpc : s.threads[i]? = some (.run rid)) :
      SFStep f s { s with threads := s.threads.set i (.postrun rid (f i)) }
  | delRec (s : SFState) (i rid : Nat) (res : SFRes)
      (hpc : s.threads[i]? = some (.postrun rid res)) :
      SFStep f s { s with table := none, threads := s.threads.set i (.postdel rid res) }
  | pubRes (s : SFState) (i rid : Nat) (res : SFRes)
      (hpc : s.threads[i]? = some (.postdel rid res)) :
      SFStep f s
        { s with
          published := s.published.set rid (some res)
          threads := s.threads.set i (.doneL rid res) }
  | waitDone (s : SFState) (i rid : Nat) (res : SFRes)
      (hpc : s.threads[i]? = some (.wait rid))
      (hres : s.published[rid]? = some (some res)) :
      SFStep f s { s with threads := s.threads.set i (.doneW rid res) }

/-- All N threads about to call `Do` on a fresh table. -/
def sfInit (n : Nat) : SFState :=
  { threads := List.replicate n .start, published := [], table := none }

inductive SFReach (f : Nat → SFRes) (n : Nat) : SFState → Prop where
  | init : SFReach f n (sfInit n)
  | next {s t : SFState} : SFReach f n s → SFStep f s t → SFReach f n t

/-- The fn outcomes of the two threads in the counterexample: different
values, so coalesced callers would have to agree on one of them. -/
def sfCexF : Nat → SFRes
  | 0 => { val := [1], err := none }
  | _ => { val := [2], err := none }

/-- Final state of the counterexample interleaving: thread 0 led record 0 to
completion, thread 1 led record 1 to completion. -/
def sfCexFinal : SFState :=
  { threads := [.doneL 0 { val := [1], err := none }, .doneL 1 { val := [2], err := none }]
    published := [some { val := [1], err := none }, some { val := [2], err := none }]
    table := none }

/-- C9 counterexample: an interleaving of two overlapping `Do(key, _)` calls
in which both functions run and the callers return different values: thread 0
installs, runs its fn, and deletes the record; thread 1 then finds the table
empty — while thread 0 is still inside `Do`, before its `wg.Done()` — and
becomes a second leader.  So it is not true that every interleaving of
concurrent calls invokes exactly one fn with all callers observing one pair. -/
theorem singleflight_two_invocations :
    SFReach sfCexF 2 sfCexFinal ∧
      sfCexFinal.threads.countP (fun pc => (leadsAt pc).isSome) = 2 ∧
      sfCexFinal.threads[0]? = some (.doneL 0 { val := [1], err := none }) ∧
      sfCexFinal.threads[1]? = some (.doneL 1 { val := [2], err := none }) := by
  refine ⟨?_, by decide, by decide, by decide⟩
  have h0 : SFReach sfCexF 2 (sfInit 2) := SFReach.init
  have h1 := SFReach.next h0 (SFStep.startLead (sfInit 2) 0 (by decide) (by decide))
  have h2 := SFReach.next h1 (SFStep.runFn _ 0 0 (by decide))
  have h3 := SFReach.next h2
    (SFStep.delRec _ 0 0 { val := [1], err := none } (by decide))
  have h4 := SFReach.next h3 (SFStep.startLead _ 1 (by decide) (by decide))
  have h5 := SFReach.next h4 (SFStep.runFn _ 1 1 (by decide))
  have h6 := SFReach.next h5
    (SFStep.delRec _ 1 1 { val := [2], err := none } (by decide))
  have h7 := SFReach.next h6
    (SFStep.pubRes _ 0 0 { val := [1], err := none } (by decide))
  have h8 := SFReach.next h7
    (SFStep.pubRes _ 1 1 { val := [2], err := none } (by decide))
  exact h8

theorem length_of_get? {α : Type} {l : List α} {i : Nat} {a : α} (h : l[i]? = some a) :
    i < l.length :=
  (List.getElem?_eq_some.mp h).1

theorem get?_set_cases {α : Type} {l : List α} {i : Nat} {b : α} {j : Nat} {pc : α}
    (hi : i < l.length) (h : (l.set i b)[j]? = some pc) :
    (j = i ∧ pc = b) ∨ (j ≠ i ∧ l[j]? = some pc) := by
  by_cases hji : j = i
  · subst hji
    rw [List.getElem?_set_self hi] at h
    exact Or.inl ⟨rfl, (Option.some_inj.mp h).symm⟩
  · exact Or.inr ⟨hji, by rwa [List.getElem?_set_ne (Ne.symm hji)] at h⟩

theorem countP_set_same {α : Type} {l : List α} {i : Nat} {a b : α} {p : α → Bool}
    (h : l[i]? = some a) (hp : p a = p b) : (l.set i b).countP p = l.countP p := by
  induction l generalizing i with
  | nil => simp at h
  | cons x xs ih =>
    cases i with
    | zero =>
      simp only [List.getElem?_cons_zero, Option.some.injEq] at h
      subst h
      simp [List.countP_cons, hp]
    | succ j =>
      simp only [List.getElem?_cons_succ] at h
      simp [List.countP_cons, ih h]

theorem countP_set_incr {α : Type} {l : List α} {i : Nat} {a b : α} {p : α → Bool}
    (h : l[i]? = some a) (hpa : p a = false) (hpb : p b = true) :
    (l.set i b).countP p = l.countP p + 1 := by
  induction l generalizing i with
  | nil => simp at h
  | cons x xs ih =>
    cases i with
    | zero =>
      simp only [List.getElem?_cons_zero, Option.some.injEq] at h
      subst h
      simp [List.countP_cons, hpa, hpb]
    | succ j =>
      simp only [List.getElem?_cons_succ] at h
      simp [List.countP_cons, ih h]
      omega

/-- The inductive invariant of the single-flight transition system. -/
structure SFInv (f : Nat → SFRes) (s : SFState) : Prop where
  refsBound : ∀ (i : Nat) (pc : TPC) (rid : Nat), s.threads[i]? = some pc →
    ridOf pc = some rid → rid < s.published.length
  tableBound : ∀ rid : Nat, s.table = some rid → rid < s.published.length
  leaderCount : s.threads.countP (fun pc => (leadsAt pc).isSome) = s.published.length
  leaderDistinct : ∀ (i j : Nat) (pci pcj : TPC) (rid : Nat), s.threads[i]? = some pci →
    s.threads[j]? = some pcj → leadsAt pci = some rid → leadsAt pcj = some rid → i = j
  leaderRes : ∀ (i : Nat) (pc : TPC) (rid : Nat) (r : SFRes), s.threads[i]? = some pc →
    leaderResult pc = some (rid, r) → r = f i
  prePubSlot : ∀ (i : Nat) (pc : TPC) (rid : Nat), s.threads[i]? = some pc →
    prePubAt pc = some rid → s.published[rid]? = some none
  pubLeader : ∀ (rid : Nat) (r : SFRes), s.published[rid]? = some (some r) →
    ∃ j : Nat, s.threads[j]? = some (.doneL rid r)
  doneWPub : ∀ (i : Nat) (rid : Nat) (r : SFRes), s.threads[i]? = some (.doneW rid r) →
    s.published[rid]? = some (some r)

theorem ridOf_of_leadsAt {pc : TPC} {rid : Nat} (h : leadsAt pc = some rid) :
    ridOf pc = some rid := by
  cases pc <;> simp [leadsAt, ridOf] at h ⊢ <;> exact h

theorem leadsAt_of_prePubAt {pc : TPC} {rid : Nat} (h : prePubAt pc = some rid) :
    leadsAt pc = some rid := by
  cases pc <;> simp [prePubAt, leadsAt] at h ⊢ <;> exact h

theorem leaderDistinct_set {f : Nat → SFRes} {s : SFState} (hs : SFInv f s) {i : Nat}
    {a b : TPC} (hpc : s.threads[i]? = some a) (hab : leadsAt a = leadsAt b) :
    ∀ (j k : Nat) (pcj pck : TPC) (rid : Nat), (s.threads.set i b)[j]? = some pcj →
      (s.threads.set i b)[k]? = some pck → leadsAt pcj = some rid →
      leadsAt pck = some rid → j = k := by
  intro j k pcj pck rid hj hk hlj hlk
  have hilen := length_of_get? hpc
  rcases get?_set_cases hilen hj with ⟨hji, hpcj⟩ | ⟨hnej, hj2⟩
  · rcases get?_set_cases hilen hk with ⟨hki, hpck⟩ | ⟨hnek, hk2⟩
    · rw [hji, hki]
    · subst hji
      subst hpcj
      rw [← hab] at hlj
      exact hs.leaderDistinct j k a pck rid hpc hk2 hlj hlk
  · rcases get?_set_cases hilen hk with ⟨hki, hpck⟩ | ⟨hnek, hk2⟩
    · subst hki
      subst hpck
      rw [← hab] at hlk
      exact hs.leaderDistinct j k pcj a rid hj2 hpc hlj hlk
    · exact hs.leaderDistinct j k pcj pck rid hj2 hk2 hlj hlk

theorem sfInv_step {f : Nat → SFRes} {s t : SFState} (hs : SFInv f s)
    (hst : SFStep f s t) : SFInv f t := by
  cases hst with
  | startWait i rid hpc ht =>
    have hilen := length_of_get? hpc
    refine ⟨?_, ?_, ?_, ?_, ?_, ?_, ?_, ?_⟩ <;> dsimp only
    · intro j pc rid2 hj hr
      rcases get?_set_cases hilen hj with ⟨rfl, rfl⟩ | ⟨hne, hj⟩
      · simp only [ridOf, Option.some.injEq] at hr
        subst hr
        exact hs.tableBound rid ht
      · exact hs.refsBound j pc rid2 hj hr
    · exact hs.tableBound
    · rw [countP_set_same (p := fun pc => (leadsAt pc).isSome) (b := TPC.wait rid) hpc rfl]
      exact hs.leaderCount
    · exact leaderDistinct_set hs hpc rfl
    · intro j pc rid2 r hj hr
      rcases get?_set_cases hilen hj with ⟨rfl, rfl⟩ | ⟨hne, hj⟩
      · simp [leaderResult] at hr
      · exact hs.leaderRes j pc rid2 r hj hr
    · intro j pc rid2 hj hr
      rcases get?_set_cases hilen hj with ⟨rfl, rfl⟩ | ⟨hne, hj⟩
      · simp [prePubAt] at hr
      · exact hs.prePubSlot j pc rid2 hj hr
    · intro rid2 r hr
      obtain ⟨j, hj⟩ := hs.pubLeader rid2 r hr
      have hne : j ≠ i := by
        rintro rfl
        rw [hpc] at hj
        simp at hj
      exact ⟨j, by rwa [List.getElem?_set_ne (Ne.symm hne)]⟩
    · intro j rid2 r hj
      rcases get?_set_cases hilen hj with ⟨rfl, heq⟩ | ⟨hne, hj⟩
      · simp at heq
      · exact hs.doneWPub j rid2 r hj
  | startLead i hpc ht =>
    have hilen := length_of_get? hpc
    refine ⟨?_, ?_, ?_, ?_, ?_, ?_, ?_, ?_⟩ <;> dsimp only
    · intro j pc rid2 hj hr
      simp only [List.length_append, List.length_cons, List.length_nil]
      rcases get?_set_cases hilen hj with ⟨rfl, rfl⟩ | ⟨hne, hj⟩
      · simp only [ridOf, Option.some.injEq] at hr
        omega
      · have := hs.refsBound j pc rid2 hj hr
        omega
    · intro rid2 hr
      simp only [Option.some.injEq] at hr
      simp only [List.length_append, List.length_cons, List.length_nil]
      omega
    · rw [countP_set_incr (p := fun pc => (leadsAt pc).isSome) (b := TPC.run s.published.length) hpc rfl rfl]
      simp only [List.length_append, List.length_cons, List.length_nil, hs.leaderCount]
    · intro j k pcj pck rid2 hj hk hlj hlk
      rcases get?_set_cases hilen hj with ⟨hji, hpcj⟩ | ⟨hnej, hj⟩
      · rcases get?_set_cases hilen hk with ⟨hki, hpck⟩ | ⟨hnek, hk⟩
        · rw [hji, hki]
        · subst hpcj
          simp only [leadsAt, Option.some.injEq] at hlj
          have := hs.refsBound k pck rid2 hk (ridOf_of_leadsAt hlk)
          omega
      · rcases get?_set_cases hilen hk with ⟨hki, hpck⟩ | ⟨hnek, hk⟩
        · subst hpck
          simp only [leadsAt, Option.some.injEq] at hlk
          have := hs.refsBound j pcj rid2 hj (ridOf_of_leadsAt hlj)
          omega
        · exact hs.leaderDistinct j k pcj pck rid2 hj hk hlj hlk
    · intro j pc rid2 r hj hr
      rcases get?_set_cases hilen hj with ⟨rfl, rfl⟩ | ⟨hne, hj⟩
      · simp [leaderResult] at hr
      · exact hs.leaderRes j pc rid2 r hj hr
    · intro j pc rid2 hj hr
      rcases get?_set_cases hilen hj with ⟨rfl, rfl⟩ | ⟨hne, hj⟩
      · simp only [prePubAt, Option.some.injEq] at hr
        subst hr
        exact List.getElem?_concat_length s.published none
      · have hlt := hs.refsBound j pc rid2 hj (ridOf_of_leadsAt (leadsAt_of_prePubAt hr))
        rw [List.getElem?_append_left hlt]
        exact hs.prePubSlot j pc rid2 hj hr
    · intro rid2 r hr
      have hlt : rid2 < s.published.length + 1 := by
        have := length_of_get? hr
        simpa using this
      rcases Nat.lt_or_ge rid2 s.published.length with hlt2 | hge
      · rw [List.getElem?_append_left hlt2] at hr
        obtain ⟨j, hj⟩ := hs.pubLeader rid2 r hr
        have hne : j ≠ i := by
          rintro rfl
          rw [hpc] at hj
          simp at hj
        exact ⟨j, by rwa [List.getElem?_set_ne (Ne.symm hne)]⟩
      · have : rid2 = s.published.length := by omega
        subst this
        rw [List.getElem?_concat_length] at hr
        simp at hr
    · intro j rid2 r hj
      rcases get?_set_cases hilen hj with ⟨rfl, heq⟩ | ⟨hne, hj⟩
      · simp at heq
      · have := hs.doneWPub j rid2 r hj
        rw [List.getElem?_append_left (length_of_get? this)]
        exact this
  | runFn i rid hpc =>
    have hilen := length_of_get? hpc
    refine ⟨?_, ?_, ?_, ?_, ?_, ?_, ?_, ?_⟩ <;> dsimp only
    · intro j pc rid2 hj hr
      rcases get?_set_cases hilen hj with ⟨rfl, rfl⟩ | ⟨hne, hj⟩
      · simp only [ridOf, Option.some.injEq] at hr
        subst hr
        exact hs.refsBound j (.run rid) rid hpc rfl
      · exact hs.refsBound j pc rid2 hj hr
    · exact hs.tableBound
    · rw [countP_set_same (p := fun pc => (leadsAt pc).isSome) (b := TPC.postrun rid (f i)) hpc rfl]
      exact hs.leaderCount
    · exact leaderDistinct_set hs hpc rfl
    · intro j pc rid2 r hj hr
      rcases get?_set_cases hilen hj with ⟨rfl, rfl⟩ | ⟨hne, hj⟩
      · simp only [leaderResult, Option.some.injEq, Prod.mk.injEq] at hr
        exact hr.2.symm
      · exact hs.leaderRes j pc rid2 r hj hr
    · intro j pc rid2 hj hr
      rcases get?_set_cases hilen hj with ⟨rfl, rfl⟩ | ⟨hne, hj⟩
      · simp only [prePubAt, Option.some.injEq] at hr
        subst hr
        exact hs.prePubSlot j (.run rid) rid hpc rfl
      · exact hs.prePubSlot j pc rid2 hj hr
    · intro rid2 r hr
      obtain ⟨j, hj⟩ := hs.pubLeader rid2 r hr
      have hne : j ≠ i := by
        rintro rfl
        rw [hpc] at hj
        simp at hj
      exact ⟨j, by rwa [List.getElem?_set_ne (Ne.symm hne)]⟩
    · intro j rid2 r hj
      rcases get?_set_cases hilen hj with ⟨rfl, heq⟩ | ⟨hne, hj⟩
      · simp at heq
      · exact hs.doneWPub j rid2 r hj
  | delRec i rid res hpc =>
    have hilen := length_of_get? hpc
    refine ⟨?_, ?_, ?_, ?_, ?_, ?_, ?_, ?_⟩ <;> dsimp only
    · intro j pc rid2 hj hr
      rcases get?_set_cases hilen hj with ⟨rfl, rfl⟩ | ⟨hne, hj⟩
      · simp only [ridOf, Option.some.injEq] at hr
        subst hr
        exact hs.refsBound j (.postrun rid res) rid hpc rfl
      · exact hs.refsBound j pc rid2 hj hr
    · intro rid2 hr
      simp at hr
    · rw [countP_set_same (p := fun pc => (leadsAt pc).isSome) (b := TPC.postdel rid res) hpc rfl]
      exact hs.leaderCount
    · exact leaderDistinct_set hs hpc rfl
    · intro j pc rid2 r hj hr
      rcases get?_set_cases hilen hj with ⟨rfl, rfl⟩ | ⟨hne, hj⟩
      · simp only [leaderResult, Option.some.injEq, Prod.mk.injEq] at hr
        rw [← hr.2]
        exact hs.leaderRes j (.postrun rid res) rid res hpc rfl
      · exact hs.leaderRes j pc rid2 r hj hr
    · intro j pc rid2 hj hr
      rcases get?_set_cases hilen hj with ⟨rfl, rfl⟩ | ⟨hne, hj⟩
      · simp only [prePubAt, Option.some.injEq] at hr
        subst hr
        exact hs.prePubSlot j (.postrun rid res) rid hpc rfl
      · exact hs.prePubSlot j pc rid2 hj hr
    · intro rid2 r hr
      obtain ⟨j, hj⟩ := hs.pubLeader rid2 r hr
      have hne : j ≠ i := by
        rintro rfl
        rw [hpc] at hj
        simp at hj
      exact ⟨j, by rwa [List.getElem?_set_ne (Ne.symm hne)]⟩
    · intro j rid2 r hj
      rcases get?_set_cases hilen hj with ⟨rfl, heq⟩ | ⟨hne, hj⟩
      · simp at heq
      · exact hs.doneWPub j rid2 r hj
  | pubRes i rid res hpc =>
    have hilen := length_of_get? hpc
    have hrid : rid < s.published.length := hs.refsBound i (.postdel rid res) rid hpc rfl
    have hslot : s.published[rid]? = some none := hs.prePubSlot i (.postdel rid res) rid hpc rfl
    refine ⟨?_, ?_, ?_, ?_, ?_, ?_, ?_, ?_⟩ <;> dsimp only
    · intro j pc rid2 hj hr
      rw [List.length_set]
      rcases get?_set_cases hilen hj with ⟨rfl, rfl⟩ | ⟨hne, hj⟩
      · simp only [ridOf, Option.some.injEq] at hr
        subst hr
        exact hrid
      · exact hs.refsBound j pc rid2 hj hr
    · intro rid2 hr
      rw [List.length_set]
      exact hs.tableBound rid2 hr
    · rw [countP_set_same (p := fun pc => (leadsAt pc).isSome) (b := TPC.doneL rid res) hpc rfl, List.length_set]
      exact hs.leaderCount
    · exact leaderDistinct_set hs hpc rfl
    · intro j pc rid2 r hj hr
      rcases get?_set_cases hilen hj with ⟨rfl, rfl⟩ | ⟨hne, hj⟩
      · simp only [leaderResult, Option.some.injEq, Prod.mk.injEq] at hr
        rw [← hr.2]
        exact hs.leaderRes j (.postdel rid res) rid res hpc rfl
      · exact hs.leaderRes j pc rid2 r hj hr
    · intro j pc rid2 hj hr
      rcases get?_set_cases hilen hj with ⟨rfl, rfl⟩ | ⟨hne, hj2⟩
      · simp [prePubAt] at hr
      · have hner : rid2 ≠ rid := by
          rintro rfl
          exact hne (hs.leaderDistinct j i pc (.postdel rid2 res) rid2 hj2 hpc
            (leadsAt_of_prePubAt hr) rfl)
        rw [List.getElem?_set_ne (Ne.symm hner)]
        exact hs.prePubSlot j pc rid2 hj2 hr
    · intro rid2 r hr
      by_cases hner : rid2 = rid
      · subst hner
        rw [List.getElem?_set_self hrid] at hr
        simp only [Option.some.injEq] at hr
        subst hr
        exact ⟨i, by rw [List.getElem?_set_self hilen]⟩
      · rw [List.getElem?_set_ne (Ne.symm hner)] at hr
        obtain ⟨j, hj⟩ := hs.pubLeader rid2 r hr
        have hne : j ≠ i := by
          rintro rfl
          rw [hpc] at hj
          simp at hj
        exact ⟨j, by rwa [List.getElem?_set_ne (Ne.symm hne)]⟩
    · intro j rid2 r hj
      rcases get?_set_cases hilen hj with ⟨rfl, heq⟩ | ⟨hne, hj⟩
      · simp at heq
      · have hws := hs.doneWPub j rid2 r hj
        have hner : rid2 ≠ rid := by
          rintro rfl
          rw [hslot] at hws
          simp at hws
        rw [List.getElem?_set_ne (Ne.symm hner)]
        exact hws
  | waitDone i rid res hpc hres =>
    have hilen := length_of_get? hpc
    refine ⟨?_, ?_, ?_, ?_, ?_, ?_, ?_, ?_⟩ <;> dsimp only
    · intro j pc rid2 hj hr
      rcases get?_set_cases hilen hj with ⟨rfl, rfl⟩ | ⟨hne, hj⟩
      · simp only [ridOf, Option.some.injEq] at hr
        subst hr
        exact length_of_get? hres
      · exact hs.refsBound j pc rid2 hj hr
    · exact hs.tableBound
    · rw [countP_set_same (p := fun pc => (leadsAt pc).isSome) (b := TPC.doneW rid res) hpc rfl]
      exact hs.leaderCount
    · exact leaderDistinct_set hs hpc rfl
    · intro j pc rid2 r hj hr
      rcases get?_set_cases hilen hj with ⟨rfl, rfl⟩ | ⟨hne, hj⟩
      · simp [leaderResult] at hr
      · exact hs.leaderRes j pc rid2 r hj hr
    · intro j pc rid2 hj hr
      rcases get?_set_cases hilen hj with ⟨rfl, rfl⟩ | ⟨hne, hj⟩
      · simp [prePubAt] at hr
      · exact hs.prePubSlot j pc rid2 hj hr
    · intro rid2 r hr
      obtain ⟨j, hj⟩ := hs.pubLeader rid2 r hr
      have hne : j ≠ i := by
        rintro rfl
        rw [hpc] at hj
        simp at hj
      exact ⟨j, by rwa [List.getElem?_set_ne (Ne.symm hne)]⟩
    · intro j rid2 r hj
      rcases get?_set_cases hilen hj with ⟨rfl, heq⟩ | ⟨hne, hj⟩
      · simp only [TPC.doneW.injEq] at heq
        rw [heq.1, heq.2]
        exact hres
      · exact hs.doneWPub j rid2 r hj

theorem sfInv_init (f : Nat → SFRes) (n : Nat) : SFInv f (sfInit n) := by
  have hrep : ∀ (i : Nat) (pc : TPC), (List.replicate n TPC.start)[i]? = some pc →
      pc = TPC.start := by
    intro i pc h
    rcases Nat.lt_or_ge i n with hlt | hge
    · rw [List.getElem?_replicate_of_lt hlt] at h
      exact (Option.some_inj.mp h).symm
    · rw [List.getElem?_eq_none (by simpa using hge)] at h
      simp at h
  refine ⟨?_, ?_, ?_, ?_, ?_, ?_, ?_, ?_⟩
  · intro i pc rid h hr
    rw [hrep i pc h] at hr
    simp [ridOf] at hr
  · intro rid h
    simp [sfInit] at h
  · show (List.replicate n TPC.start).countP _ = ([] : List (Option SFRes)).length
    rw [List.length_nil, List.countP_eq_zero]
    intro pc hpc
    rw [List.eq_of_mem_replicate hpc]
    simp [leadsAt]
  · intro i j pci pcj rid hi hj hli hlj
    rw [hrep i pci hi] at hli
    simp [leadsAt] at hli
  · intro i pc rid r hi hr
    rw [hrep i pc hi] at hr
    simp [leaderResult] at hr
  · intro i pc rid hi hr
    rw [hrep i pc hi] at hr
    simp [prePubAt] at hr
  · intro rid r hr
    simp [sfInit] at hr
  · intro i rid r hi
    have := hrep i _ hi
    simp at this

theorem sfInv_reach {f : Nat → SFRes} {n : Nat} {s : SFState} (h : SFReach f n s) :
    SFInv f s := by
  induction h with
  | init => exact sfInv_init f n
  | next hr hst ih => exact sfInv_step ih hst

/-- C9 (amended): in every interleaving of N `Do(key, f_i)` calls, reached
state by state: the number of invoked functions equals the number of
installed records (a call that finds a record in flight becomes a waiter and
invokes nothing — only a call that finds the table empty installs a record
and runs its function); each record has at most one leader; and every waiter
that completes observes exactly the (value, error) pair produced by the
leader of the record it waited on.  The original claim's stronger form —
exactly one invocation with all callers agreeing — holds for the calls
coalesced onto one record, but not across records, as the counterexample
shows. -/
theorem singleflight_per_record_coalescing (f : Nat → SFRes) (n : Nat) (s : SFState)
    (h : SFReach f n s) :
    (s.threads.countP (fun pc => (leadsAt pc).isSome) = s.published.length) ∧
      (∀ (i rid : Nat) (r : SFRes), s.threads[i]? = some (.doneW rid r) →
        ∃ j : Nat, s.threads[j]? = some (.doneL rid r) ∧ r = f j) ∧
      (∀ (i j : Nat) (pci pcj : TPC) (rid : Nat), s.threads[i]? = some pci →
        s.threads[j]? = some pcj → leadsAt pci = some rid → leadsAt pcj = some rid →
        i = j) := by
  have hinv := sfInv_reach h
  refine ⟨hinv.leaderCount, ?_, hinv.leaderDistinct⟩
  intro i rid r hw
  obtain ⟨j, hj⟩ := hinv.pubLeader rid r (hinv.doneWPub i rid r hw)
  exact ⟨j, hj, hinv.leaderRes j (.doneL rid r) rid r hj rfl⟩

/-- Final state of a fully coalesced run: thread 0 led record 0, thread 1
waited on it and observed the same result. -/
def sfWitnessFinal : SFState :=
  { threads := [.doneL 0 { val := [1], err := none }, .doneW 0 { val := [1], err := none }]
    published := [some { val := [1], err := none }]
    table := none }

/-- C9 witness: the amended theorem applied to a concrete reachable
coalesced execution of two threads; one record was installed, one function
ran, and the waiter's result is the leader's `f 0`. -/
theorem singleflight_per_record_coalescing_witness :
    sfWitnessFinal.threads.countP (fun pc => (leadsAt pc).isSome) =
        sfWitnessFinal.published.length ∧
      ({ val := [1], err := none } : SFRes) = sfCexF 0 := by
  have hreach : SFReach sfCexF 2 sfWitnessFinal := by
    have h0 : SFReach sfCexF 2 (sfInit 2) := SFReach.init
    have h1 := SFReach.next h0 (SFStep.startLead (sfInit 2) 0 (by decide) (by decide))
    have h2 := SFReach.next h1 (SFStep.startWait _ 1 0 (by decide) (by decide))
    have h3 := SFReach.next h2 (SFStep.runFn _ 0 0 (by decide))
    have h4 := SFReach.next h3
      (SFStep.delRec _ 0 0 { val := [1], err := none } (by decide))
    have h5 := SFReach.next h4
      (SFStep.pubRes _ 0 0 { val := [1], err := none } (by decide))
    have h6 := SFReach.next h5
      (SFStep.waitDone _ 1 0 { val := [1], err := none } (by decide) (by decide))
    exact h6
  have h := singleflight_per_record_coalescing sfCexF 2 sfWitnessFinal hreach
  obtain ⟨j, hj, hr⟩ := h.2.1 1 0 { val := [1], err := none } (by decide)
  have hjlt : j < 2 := by
    simpa [sfWitnessFinal] using length_of_get? hj
  interval_cases j
  · exact ⟨h.1, hr⟩
  · exact absurd hj (by decide)

end ApiProxy
